import Mathlib

/-!
Shallow embedding of the core of `regexgen-rs` (`src/lib.rs`): the pattern
data model, the regex compiler `Pattern::to_regex`, the tokenizer
`get_words_from_text`, and the `PatternBuilder` operations
(`build_sequence_pattern`, `get_pattern_preview`, `test_pattern`,
`delete_pattern`, `remove_selection`).

Rust strings are modelled as Lean `String` / `List Char`; Rust byte offsets
from `char_indices` are modelled with `Char.utf8Size`. The `u32` / `usize`
integers are modelled as `Nat` (no arithmetic in the code can overflow a
`u32`/`usize` in any way the claims depend on; the only operations are
increments and decimal formatting). External collaborators (local storage,
the id generator, the regex execution engine) are passed in as explicit
parameters, so the state-changing methods become pure state transformers.
-/

namespace Regexgen

/-- Models Rust `char::is_alphanumeric` (true on Unicode alphabetic and
numeric code points). The embedding decides it with the ASCII table, which
agrees with Rust on every code point appearing in this development: ASCII
alphanumerics are alphanumeric, and ASCII punctuation, ASCII space and
U+20AC EURO SIGN are not. -/
def isAlphanumeric (c : Char) : Bool :=
  c.isAlphanum

/-- The meta characters of the `regex` crate, `regex_syntax::is_meta_character`:
exactly these are escaped by `regex::escape`. -/
def isMetaCharacter (c : Char) : Bool :=
  c = '\\' || c = '.' || c = '+' || c = '*' || c = '?' || c = '(' || c = ')' ||
  c = '|' || c = '[' || c = ']' || c = '\x7b' || c = '\x7d' || c = '^' ||
  c = '$' || c = '#' || c = '&' || c = '-' || c = '~'

/-- Models `regex::escape`: every meta character is prefixed with a
backslash, all other characters pass through unchanged. -/
def rustRegexEscape (s : String) : String :=
  String.mk (s.data.flatMap fun c => if isMetaCharacter c then ['\\', c] else [c])

/-- `PatternElement` from `src/lib.rs`. -/
inductive PatternElement where
  | Word (text : String)
  | Gap (min_words : Nat) (max_words : Option Nat)
  | Reference (pattern_id : String)
  | OneOf (options : List String)
  deriving Repr, DecidableEq

/-- `CompositeOperator` from `src/lib.rs`. -/
inductive CompositeOperator where
  | And
  | Or
  | Not
  deriving Repr, DecidableEq

/-- `Pattern` from `src/lib.rs`. -/
inductive Pattern where
  | Sequence (id name : String) (elements : List PatternElement)
  | Composite (id name : String) (operator : CompositeOperator)
      (patterns : List Pattern)
  deriving Repr

/-- `SelectionSpan` from `src/lib.rs`. -/
structure SelectionSpan where
  text : String
  start_index : Nat
  end_index : Nat
  word_index : Nat
  deriving Repr, DecidableEq

/-- The per-element compilation performed inside the
`Pattern::Sequence` arm of `Pattern::to_regex`. -/
def elementRegex : PatternElement → String
  | PatternElement.Word text =>
      -- the source checks text.contains(' ') but both branches emit
      -- the same \b-wrapped escaped literal
      if text.contains ' ' then
        "\\b" ++ rustRegexEscape text ++ "\\b"
      else
        "\\b" ++ rustRegexEscape text ++ "\\b"
  | PatternElement.Gap min_words max_words =>
      if min_words == 0 && max_words == none then
        ".*?"
      else
        match max_words with
        | some mx => "(?:\\W+\\w+)\x7b" ++ toString min_words ++ "," ++
            toString mx ++ "\x7d"
        | none => "(?:\\W+\\w+)\x7b" ++ toString min_words ++ ",\x7d"
  | PatternElement.OneOf options =>
      "\\b(?:" ++ String.intercalate "|" (options.map rustRegexEscape) ++ ")\\b"
  | PatternElement.Reference _ => ".*"

/-- `Pattern::to_regex` from `src/lib.rs`. -/
def Pattern.to_regex : Pattern → String
  | Pattern.Sequence _ _ elements =>
      String.join (elements.map elementRegex)
  | Pattern.Composite _ _ op pats =>
      match op with
      | CompositeOperator.Or =>
          String.intercalate "|"
            (pats.attach.map fun x => "(" ++ x.1.to_regex ++ ")")
      | CompositeOperator.And =>
          String.join
            (pats.attach.map fun x => "(?=.*" ++ x.1.to_regex ++ ")") ++ ".*"
      | CompositeOperator.Not =>
          match pats with
          | [] => ""
          | p :: _ => "(?!.*" ++ p.to_regex ++ ")"
termination_by p => sizeOf p
decreasing_by
  · have h := List.sizeOf_lt_of_mem x.2
    simp only [Pattern.Composite.sizeOf_spec] at *
    omega
  · have h := List.sizeOf_lt_of_mem x.2
    simp only [Pattern.Composite.sizeOf_spec] at *
    omega
  · simp only [Pattern.Composite.sizeOf_spec, List.cons.sizeOf_spec] at *
    omega

/-- `WordInfo` from `src/lib.rs`. -/
structure WordInfo where
  text : String
  start_index : Nat
  end_index : Nat
  word_index : Nat
  deriving Repr, DecidableEq

/-- Models Rust `str::char_indices` starting at byte offset `i`: each
character is paired with its UTF-8 byte offset. -/
def charIndicesFrom (i : Nat) : List Char → List (Nat × Char)
  | [] => []
  | c :: cs => (i, c) :: charIndicesFrom (i + c.utf8Size) cs

/-- The inner `while let Some(&(j, next_c)) = chars.peek()` loop of
`get_words_from_text`: after the word's first character, whose byte offset is
the running `end` value `e`, collect the following alphanumeric characters.
Returns the collected characters (the pushes onto `word`), the final `end`
value, and the unconsumed remainder of the stream. -/
def collectW (e : Nat) : List (Nat × Char) → List Char × Nat × List (Nat × Char)
  | [] => ([], e, [])
  | (j, c) :: rest =>
    if isAlphanumeric c then
      let r := collectW j rest
      (c :: r.1, r.2.1, r.2.2)
    else ([], e, (j, c) :: rest)

theorem collectW_rem_length_le (e : Nat) (l : List (Nat × Char)) :
    (collectW e l).2.2.length ≤ l.length := by
  induction l generalizing e with
  | nil => simp [collectW]
  | cons hd tl ih =>
    obtain ⟨j, c⟩ := hd
    by_cases h : isAlphanumeric c
    · simpa [collectW, h] using Nat.le_succ_of_le (ih j)
    · simp [collectW, h]

/-- The outer `while let Some((i, c)) = chars.next()` loop of
`get_words_from_text`, with `wi` the running `word_index`. -/
def getWordsAux : List (Nat × Char) → Nat → List WordInfo
  | [], _ => []
  | (i, c) :: rest, wi =>
    if isAlphanumeric c then
      let r := collectW i rest
      ⟨String.mk (c :: r.1), i, r.2.1 + 1, wi⟩ :: getWordsAux r.2.2 (wi + 1)
    else getWordsAux rest wi
termination_by l => l.length
decreasing_by
  · have h := collectW_rem_length_le i rest
    simp only [List.length_cons]
    omega
  · simp only [List.length_cons]
    omega

/-- `get_words_from_text` from `src/lib.rs`, on the character sequence of the
input string (the `JsValue` serialization of the result vector is dropped;
the embedding returns the `WordInfo` list itself). -/
def get_words_from_text (s : List Char) : List WordInfo :=
  getWordsAux (charIndicesFrom 0 s) 0

/-- The sort performed by `self.current_selections.sort_by_key(|s| s.word_index)`.
Rust's `sort_by_key` is a stable sort; `List.mergeSort` is stable as well. -/
def sortSelections (sels : List SelectionSpan) : List SelectionSpan :=
  sels.mergeSort (fun a b => a.word_index ≤ b.word_index)

/-- The inner `while j < len` loop shared verbatim by
`build_sequence_pattern` and `get_pattern_preview`: starting from the
already-collected selection `prev` (the source's `selections[j-1]`), collect
the following selections as long as each one's `word_index` is the previous
one's `word_index + 1`. Returns the collected selections and the unconsumed
remainder (the source's `selections[j..]`). -/
def collectRun (prev : SelectionSpan) :
    List SelectionSpan → List SelectionSpan × List SelectionSpan
  | [] => ([], [])
  | next :: rest =>
    if next.word_index == prev.word_index + 1 then
      let r := collectRun next rest
      (next :: r.1, r.2)
    else ([], next :: rest)

theorem collectRun_rem_length_le (prev : SelectionSpan) (l : List SelectionSpan) :
    (collectRun prev l).2.length ≤ l.length := by
  induction l generalizing prev with
  | nil => simp [collectRun]
  | cons hd tl ih =>
    by_cases h : hd.word_index == prev.word_index + 1
    · simpa [collectRun, h] using Nat.le_succ_of_le (ih hd)
    · simp [collectRun, h]

/-- The outer `while i < len` loop of `build_sequence_pattern`, producing the
element list of the new `Pattern::Sequence`: each maximal adjacent run
becomes one `Word` (`phrase_words[0]` for a single word, the words joined by
`" "` for a phrase), and `Gap{0, None}` is pushed whenever a further
selection follows (`j < len`). -/
def buildElemsAux : List SelectionSpan → List PatternElement
  | [] => []
  | s :: rest =>
    let r := collectRun s rest
    -- phrase_words = s.text :: texts of the collected run;
    -- phrase_words.len() == 1 exactly when the collected tail is empty
    let elem := if r.1.isEmpty then PatternElement.Word s.text
      else PatternElement.Word (String.intercalate " " (s.text :: r.1.map (·.text)))
    if r.2.isEmpty then [elem]
    else elem :: PatternElement.Gap 0 none :: buildElemsAux r.2
termination_by l => l.length
decreasing_by
  simp only [List.length_cons]
  exact Nat.lt_succ_of_le (collectRun_rem_length_le _ _)

/-- The preview descriptors emitted by `get_pattern_preview`:
`word t` is the JSON object with type `word` and text `t`, `phrase t` the
one with type `phrase`, and `andSep` the fixed object with type `and` and
text `AND`. -/
inductive PreviewElem where
  | word (text : String)
  | phrase (text : String)
  | andSep
  deriving Repr, DecidableEq

/-- The grouping loop of `get_pattern_preview`, which is character-for-
character the same walk as the one in `build_sequence_pattern`, emitting
preview descriptors instead of pattern elements. -/
def previewAux : List SelectionSpan → List PreviewElem
  | [] => []
  | s :: rest =>
    let r := collectRun s rest
    let elem := if r.1.isEmpty then PreviewElem.word s.text
      else PreviewElem.phrase (String.intercalate " " (s.text :: r.1.map (·.text)))
    if r.2.isEmpty then [elem]
    else elem :: PreviewElem.andSep :: previewAux r.2
termination_by l => l.length
decreasing_by
  simp only [List.length_cons]
  exact Nat.lt_succ_of_le (collectRun_rem_length_le _ _)

/-- The in-memory state of `PatternBuilder`. -/
structure PatternBuilder where
  patterns : List Pattern
  current_selections : List SelectionSpan

/-- Outcome of a `PatternBuilder` method that may write to storage:
the returned value, the new in-memory state, and the sequence of
`save_patterns_to_storage` invocations (each recorded with the pattern
list passed to it). -/
structure BuildOutcome (α : Type) where
  result : Except String α
  builder : PatternBuilder
  saves : List (List Pattern)

/-- `PatternBuilder::build_sequence_pattern` from `src/lib.rs`.
The external collaborators are explicit parameters: `newId` is the value
returned by `generate_id()`, and `save` is the outcome of
`save_patterns_to_storage` on a given pattern list (its error value is the
`JsValue` the `?` operator propagates). -/
def build_sequence_pattern (b : PatternBuilder) (name newId : String)
    (save : List Pattern → Except String Unit) : BuildOutcome String :=
  if b.current_selections.isEmpty then
    ⟨Except.error "No selections to build pattern from", b, []⟩
  else
    let sorted := sortSelections b.current_selections
    let elements := buildElemsAux sorted
    let pattern := Pattern.Sequence newId name elements
    let regex := pattern.to_regex
    let patterns1 := b.patterns ++ [pattern]
    match save patterns1 with
    | Except.ok _ => ⟨Except.ok regex, ⟨patterns1, []⟩, [patterns1]⟩
    | Except.error e => ⟨Except.error e, ⟨patterns1, sorted⟩, [patterns1]⟩

/-- `PatternBuilder::get_pattern_preview` from `src/lib.rs`: `none` models
the `JsValue::NULL` returned for an empty selection buffer; otherwise the
grouping runs on a sorted clone of the buffer. The method takes `&self`, so
it is a pure function of the builder state. -/
def get_pattern_preview (b : PatternBuilder) : Option (List PreviewElem) :=
  if b.current_selections.isEmpty then none
  else some (previewAux (sortSelections b.current_selections))

/-- `PatternBuilder::test_pattern` from `src/lib.rs`. The external regex
engine is the parameter `engine`, modelling `regex::Regex::new`: it returns
`none` when the constructor rejects the regex string, and otherwise the
matcher `find`, where `find text` lists the `(start, end)` spans of
`find_iter` — all non-overlapping matches, scanning left to right. The
result `none` models `JsValue::NULL`. -/
def test_pattern (b : PatternBuilder) (pattern_index : Nat) (text : String)
    (engine : String → Option (String → List (Nat × Nat))) :
    Option (List (Nat × Nat)) :=
  match b.patterns.get? pattern_index with
  | none => none
  | some p =>
    match engine p.to_regex with
    | none => none
    | some find => some (find text)

/-- `PatternBuilder::delete_pattern` from `src/lib.rs`, with the same
storage modelling as `build_sequence_pattern`. -/
def delete_pattern (b : PatternBuilder) (index : Nat)
    (save : List Pattern → Except String Unit) : BuildOutcome Unit :=
  if index < b.patterns.length then
    let patterns1 := b.patterns.eraseIdx index
    match save patterns1 with
    | Except.ok _ => ⟨Except.ok (), ⟨patterns1, b.current_selections⟩, [patterns1]⟩
    | Except.error e => ⟨Except.error e, ⟨patterns1, b.current_selections⟩, [patterns1]⟩
  else
    ⟨Except.ok (), b, []⟩

/-- `PatternBuilder::remove_selection` from `src/lib.rs`. -/
def remove_selection (b : PatternBuilder) (index : Nat) : PatternBuilder :=
  if index < b.current_selections.length then
    ⟨b.patterns, b.current_selections.eraseIdx index⟩
  else b

/-- The maximal-run grouping both loops compute: the selection list split
into its maximal adjacent runs (each entry's `word_index` one more than the
previous entry's). `buildElemsAux` and `previewAux` are proved below to be
exactly this grouping with phrases joined and separators interspersed. -/
def runsOf : List SelectionSpan → List (List SelectionSpan)
  | [] => []
  | s :: rest =>
    let r := collectRun s rest
    (s :: r.1) :: runsOf r.2
termination_by l => l.length
decreasing_by
  simp only [List.length_cons]
  exact Nat.lt_succ_of_le (collectRun_rem_length_le _ _)

/-- The `Word` element `build_sequence_pattern` emits for one run. -/
def mkPhrase : List SelectionSpan → PatternElement
  | [] => PatternElement.Word ""
  | [s] => PatternElement.Word s.text
  | s :: tl => PatternElement.Word (String.intercalate " " ((s :: tl).map (·.text)))

/-- The preview descriptor `get_pattern_preview` emits for one run. -/
def mkPreview : List SelectionSpan → PreviewElem
  | [] => PreviewElem.word ""
  | [s] => PreviewElem.word s.text
  | s :: tl => PreviewElem.phrase (String.intercalate " " ((s :: tl).map (·.text)))

/-- Interpretation of a preview descriptor as the pattern element the
builder commits at the same position. -/
def previewToElem : PreviewElem → PatternElement
  | PreviewElem.word t => PatternElement.Word t
  | PreviewElem.phrase t => PatternElement.Word t
  | PreviewElem.andSep => PatternElement.Gap 0 none

theorem to_regex_sequence (id name : String) (elements : List PatternElement) :
    (Pattern.Sequence id name elements).to_regex =
      String.join (elements.map elementRegex) := by
  rw [Pattern.to_regex]

theorem to_regex_or (id name : String) (pats : List Pattern) :
    (Pattern.Composite id name CompositeOperator.Or pats).to_regex =
      String.intercalate "|" (pats.map fun p => "(" ++ p.to_regex ++ ")") := by
  rw [Pattern.to_regex]
  simp [List.map_subtype]

theorem to_regex_and (id name : String) (pats : List Pattern) :
    (Pattern.Composite id name CompositeOperator.And pats).to_regex =
      String.join (pats.map fun p => "(?=.*" ++ p.to_regex ++ ")") ++ ".*" := by
  rw [Pattern.to_regex]
  simp [List.map_subtype]

theorem to_regex_not (id name : String) (pats : List Pattern) :
    (Pattern.Composite id name CompositeOperator.Not pats).to_regex =
      match pats with
      | [] => ""
      | p :: _ => "(?!.*" ++ p.to_regex ++ ")" := by
  cases pats with
  | nil => rw [Pattern.to_regex]
  | cons p ps => rw [Pattern.to_regex]

theorem collectRun_append (p : SelectionSpan) (l : List SelectionSpan) :
    (collectRun p l).1 ++ (collectRun p l).2 = l := by
  induction l generalizing p with
  | nil => simp [collectRun]
  | cons next rest ih =>
    by_cases h : next.word_index == p.word_index + 1
    · simp [collectRun, h, ih next]
    · simp [collectRun, h]

theorem collectRun_chain (p : SelectionSpan) (l : List SelectionSpan) :
    List.Chain' (fun a b => b.word_index = a.word_index + 1)
      (p :: (collectRun p l).1) := by
  induction l generalizing p with
  | nil => simp [collectRun]
  | cons next rest ih =>
    by_cases h : next.word_index == p.word_index + 1
    · have hadj : next.word_index = p.word_index + 1 := by simpa using h
      simp only [collectRun, h, if_pos]
      exact List.chain'_cons.mpr ⟨hadj, ih next⟩
    · simp [collectRun, h]

theorem collectRun_rem_head (p : SelectionSpan) (l : List SelectionSpan) :
    ∀ x y, (collectRun p l).2.head? = some x →
      (p :: (collectRun p l).1).getLast? = some y →
      ¬ x.word_index = y.word_index + 1 := by
  induction l generalizing p with
  | nil => intro x y hx _; simp [collectRun] at hx
  | cons next rest ih =>
    intro x y hx hy
    by_cases h : next.word_index == p.word_index + 1
    · simp only [collectRun, h, if_pos] at hx hy
      rw [List.getLast?_cons_cons] at hy
      exact ih next x y hx hy
    · have hne : ¬ next.word_index = p.word_index + 1 := by simpa using h
      simp only [collectRun, h, if_neg, Bool.not_eq_true] at hx hy
      simp only [List.head?_cons, Option.some.injEq] at hx
      simp only [List.getLast?_singleton, Option.some.injEq] at hy
      subst hx
      subst hy
      exact hne

theorem runsOf_cons (s : SelectionSpan) (rest : List SelectionSpan) :
    runsOf (s :: rest) =
      (s :: (collectRun s rest).1) :: runsOf (collectRun s rest).2 := by
  rw [runsOf]

theorem runsOf_flatten (l : List SelectionSpan) : (runsOf l).flatten = l := by
  induction l using runsOf.induct with
  | case1 => simp [runsOf]
  | case2 s rest r ih =>
    rw [runsOf_cons]
    simp only [List.flatten_cons, List.cons_append]
    rw [ih, collectRun_append]

theorem runsOf_runs (l : List SelectionSpan) :
    ∀ r ∈ runsOf l,
      r ≠ [] ∧ List.Chain' (fun a b => b.word_index = a.word_index + 1) r := by
  induction l using runsOf.induct with
  | case1 => simp [runsOf]
  | case2 s rest r ih =>
    rw [runsOf_cons]
    intro q hq
    rcases List.mem_cons.mp hq with rfl | hmem
    · exact ⟨List.cons_ne_nil _ _, collectRun_chain s rest⟩
    · exact ih q hmem

theorem runsOf_boundary (l : List SelectionSpan) :
    List.Chain'
      (fun r1 r2 => ∀ x y, r1.getLast? = some x → r2.head? = some y →
        ¬ y.word_index = x.word_index + 1) (runsOf l) := by
  induction l using runsOf.induct with
  | case1 => simp [runsOf]
  | case2 s rest r ih =>
    unfold r at ih
    rw [runsOf_cons]
    cases hrem : (collectRun s rest).2 with
    | nil => simp [runsOf]
    | cons y ys =>
      rw [hrem] at ih
      rw [runsOf_cons] at ih ⊢
      refine List.chain'_cons.mpr ⟨?_, ih⟩
      intro a b hlast hhead
      simp only [List.head?_cons] at hhead
      refine collectRun_rem_head s rest b a ?_ hlast
      rw [hrem]
      simpa using hhead

theorem mkPhrase_join (s : SelectionSpan) (tl : List SelectionSpan) :
    mkPhrase (s :: tl) =
      PatternElement.Word (String.intercalate " " ((s :: tl).map (·.text))) := by
  cases tl with
  | nil => rfl
  | cons t tl2 => rfl

theorem buildElemsAux_runs (l : List SelectionSpan) :
    buildElemsAux l =
      List.intersperse (PatternElement.Gap 0 none) ((runsOf l).map mkPhrase) := by
  induction l using runsOf.induct with
  | case1 => simp [buildElemsAux, runsOf]
  | case2 s rest r ih =>
    unfold r at ih
    rw [runsOf_cons, buildElemsAux]
    have helem :
        (if (collectRun s rest).1.isEmpty then PatternElement.Word s.text
          else PatternElement.Word (String.intercalate " "
            (s.text :: (collectRun s rest).1.map (·.text)))) =
        mkPhrase (s :: (collectRun s rest).1) := by
      cases hc : (collectRun s rest).1 with
      | nil => simp [hc, mkPhrase]
      | cons x xs => simp [hc, mkPhrase]
    rw [helem]
    cases hrem : (collectRun s rest).2 with
    | nil => simp [runsOf, List.intersperse_singleton]
    | cons y ys =>
      rw [hrem] at ih
      rw [if_neg (by simp), ih, runsOf_cons]
      simp only [List.map_cons]
      rw [List.intersperse_cons_cons]

theorem previewAux_runs (l : List SelectionSpan) :
    previewAux l =
      List.intersperse PreviewElem.andSep ((runsOf l).map mkPreview) := by
  induction l using runsOf.induct with
  | case1 => simp [previewAux, runsOf]
  | case2 s rest r ih =>
    unfold r at ih
    rw [runsOf_cons, previewAux]
    have helem :
        (if (collectRun s rest).1.isEmpty then PreviewElem.word s.text
          else PreviewElem.phrase (String.intercalate " "
            (s.text :: (collectRun s rest).1.map (·.text)))) =
        mkPreview (s :: (collectRun s rest).1) := by
      cases hc : (collectRun s rest).1 with
      | nil => simp [hc, mkPreview]
      | cons x xs => simp [hc, mkPreview]
    rw [helem]
    cases hrem : (collectRun s rest).2 with
    | nil => simp [runsOf, List.intersperse_singleton]
    | cons y ys =>
      rw [hrem] at ih
      rw [if_neg (by simp), ih, runsOf_cons]
      simp only [List.map_cons]
      rw [List.intersperse_cons_cons]

theorem previewToElem_mkPreview (r : List SelectionSpan) :
    previewToElem (mkPreview r) = mkPhrase r := by
  cases r with
  | nil => rfl
  | cons s tl =>
    cases tl with
    | nil => rfl
    | cons t tl' => rfl

theorem sortSelections_sorted (sels : List SelectionSpan) :
    List.Pairwise (fun a b : SelectionSpan => a.word_index ≤ b.word_index)
      (sortSelections sels) := by
  have h := @List.sorted_mergeSort SelectionSpan
    (fun a b : SelectionSpan => a.word_index ≤ b.word_index)
    (fun a b c hab hbc => by
      simp only [decide_eq_true_eq] at *
      omega)
    (fun a b => by
      simp only [Bool.or_eq_true, decide_eq_true_eq]
      omega)
    sels
  simpa using h

theorem intersperse_map {α β : Type} (f : α → β) (sep : α) (l : List α) :
    (List.intersperse sep l).map f = List.intersperse (f sep) (l.map f) := by
  induction l with
  | nil => simp
  | cons x tl ih =>
    cases tl with
    | nil => simp
    | cons y tl' => simp_all [List.intersperse_cons_cons]

theorem elementRegex_word (t : String) :
    elementRegex (PatternElement.Word t) = "\\b" ++ rustRegexEscape t ++ "\\b" := by
  simp [elementRegex]

/-- CLAIM C1 (corrected), counterexample to the claim as stated: the
`And` composite of the two single-word sequences `cat` and `dog` does not
compile to the spec's string, whose lookaheads carry a trailing `.*`
inside them; the code emits the lookaheads as `(?=.*<compiled>)` with no
trailing `.*` before the closing parenthesis. -/
theorem claim_C1_counterexample :
    (Pattern.Composite "c1" "combo" CompositeOperator.And
      [Pattern.Sequence "s1" "cat" [PatternElement.Word "cat"],
       Pattern.Sequence "s2" "dog" [PatternElement.Word "dog"]]).to_regex ≠
    "(?=.*\\bcat\\b.*)(?=.*\\bdog\\b.*).*" := by
  rw [to_regex_and]
  simp only [List.map_cons, List.map_nil, to_regex_sequence, elementRegex_word]
  decide

/-- CLAIM C1 (corrected): compiling the `And` composite of the sequences
`Word "cat"` and `Word "dog"` yields exactly
`(?=.*\bcat\b)(?=.*\bdog\b).*` — each sub-pattern becomes a positive
lookahead `(?=.*<compiled>)` (with no trailing `.*` inside the lookahead)
and a trailing unconstrained match `.*` is appended. -/
theorem claim_C1 :
    (Pattern.Composite "c1" "combo" CompositeOperator.And
      [Pattern.Sequence "s1" "cat" [PatternElement.Word "cat"],
       Pattern.Sequence "s2" "dog" [PatternElement.Word "dog"]]).to_regex =
      "(?=.*\\bcat\\b)(?=.*\\bdog\\b).*" ∧
    (∀ (id name : String) (pats : List Pattern),
      (Pattern.Composite id name CompositeOperator.And pats).to_regex =
        String.join (pats.map fun p => "(?=.*" ++ p.to_regex ++ ")") ++ ".*") := by
  constructor
  · rw [to_regex_and]
    simp only [List.map_cons, List.map_nil, to_regex_sequence, elementRegex_word]
    decide
  · exact to_regex_and

/-- CLAIM C5 (confirmed): a `Not` composite honors only its first
sub-pattern, compiling to the negative lookahead `(?!.*<compiled first>)`
regardless of any further sub-patterns, and an empty sub-pattern list
compiles to the empty string. -/
theorem claim_C5 :
    (∀ (id name : String) (p : Pattern) (rest : List Pattern),
      (Pattern.Composite id name CompositeOperator.Not (p :: rest)).to_regex =
        "(?!.*" ++ p.to_regex ++ ")") ∧
    (∀ (id name : String),
      (Pattern.Composite id name CompositeOperator.Not []).to_regex = "") := by
  constructor
  · intro id name p rest
    rw [to_regex_not]
  · intro id name
    rw [to_regex_not]

/-- CLAIM C6 (confirmed): a `Gap` element compiles to the non-greedy
wildcard `.*?` when `min_words = 0` and `max_words` is absent; to
`(?:\W+\w+){m,n}` when `max_words = Some n`, for any `min_words = m`
including `0`; and to `(?:\W+\w+){m,}` when `min_words = m > 0` and
`max_words` is absent. -/
theorem claim_C6 :
    elementRegex (PatternElement.Gap 0 none) = ".*?" ∧
    (∀ (m n : Nat),
      elementRegex (PatternElement.Gap m (some n)) =
        "(?:\\W+\\w+)\x7b" ++ toString m ++ "," ++ toString n ++ "\x7d") ∧
    (∀ (m : Nat), 0 < m →
      elementRegex (PatternElement.Gap m none) =
        "(?:\\W+\\w+)\x7b" ++ toString m ++ ",\x7d") := by
  refine ⟨rfl, ?_, ?_⟩
  · intro m n
    simp [elementRegex]
  · intro m hm
    have h : (m == 0) = false := by simp; omega
    simp [elementRegex, h]

/-- Witness for `claim_C6` at `m = 2`. -/
theorem claim_C6_witness :
    elementRegex (PatternElement.Gap 2 none) = "(?:\\W+\\w+)\x7b2,\x7d" := by
  have h := claim_C6.2.2 2 (by decide)
  simpa using h

/-- CLAIM C7 (confirmed): building from an empty selection buffer returns
the explicit error, invokes no storage save, and leaves the builder state
(pattern list and selection buffer) unchanged. -/
theorem claim_C7 :
    ∀ (b : PatternBuilder) (name newId : String)
      (save : List Pattern → Except String Unit),
      b.current_selections = [] →
      build_sequence_pattern b name newId save =
        ⟨Except.error "No selections to build pattern from", b, []⟩ := by
  intro b name newId save h
  simp [build_sequence_pattern, h]

/-- Witness for `claim_C7` on a concrete builder with an empty buffer. -/
theorem claim_C7_witness :
    build_sequence_pattern ⟨[], []⟩ "n" "id" (fun _ => Except.ok ()) =
      ⟨Except.error "No selections to build pattern from", ⟨[], []⟩, []⟩ :=
  claim_C7 ⟨[], []⟩ "n" "id" (fun _ => Except.ok ()) rfl

/-- CLAIM C8 (confirmed): `delete_pattern` at an index at or beyond the
pattern-list length returns `Ok` while performing no list mutation and no
storage save, and `remove_selection` at an out-of-range index leaves the
builder unchanged. -/
theorem claim_C8 :
    (∀ (b : PatternBuilder) (idx : Nat)
      (save : List Pattern → Except String Unit),
      b.patterns.length ≤ idx →
      delete_pattern b idx save = ⟨Except.ok (), b, []⟩) ∧
    (∀ (b : PatternBuilder) (idx : Nat),
      b.current_selections.length ≤ idx →
      remove_selection b idx = b) := by
  constructor
  · intro b idx save h
    simp [delete_pattern, Nat.not_lt.mpr h]
  · intro b idx h
    simp [remove_selection, Nat.not_lt.mpr h]

/-- Witness for `claim_C8` on a one-pattern builder at index `1`. -/
theorem claim_C8_witness :
    delete_pattern ⟨[Pattern.Sequence "i" "n" []], []⟩ 1
        (fun _ => Except.ok ()) =
      ⟨Except.ok (), ⟨[Pattern.Sequence "i" "n" []], []⟩, []⟩ ∧
    remove_selection ⟨[], [⟨"w", 0, 1, 0⟩]⟩ 3 = ⟨[], [⟨"w", 0, 1, 0⟩]⟩ := by
  constructor
  · exact claim_C8.1 ⟨[Pattern.Sequence "i" "n" []], []⟩ 1 _ (by decide)
  · exact claim_C8.2 ⟨[], [⟨"w", 0, 1, 0⟩]⟩ 3 (by decide)

/-- CLAIM C9 (confirmed): `test_pattern` returns the distinguished `none`
(`JsValue::NULL`) exactly when the index is out of range of the pattern
list or the regex engine's constructor rejects the compiled string; when
the lookup and construction succeed it returns `some` of the engine's
match-span list — possibly empty, and distinct from `none`. -/
theorem claim_C9 :
    ∀ (b : PatternBuilder) (idx : Nat) (text : String)
      (engine : String → Option (String → List (Nat × Nat))),
      (test_pattern b idx text engine = none ↔
        b.patterns.length ≤ idx ∨
        ∃ p, b.patterns.get? idx = some p ∧ engine p.to_regex = none) ∧
      (∀ p find, b.patterns.get? idx = some p →
        engine p.to_regex = some find →
        test_pattern b idx text engine = some (find text)) := by
  intro b idx text engine
  constructor
  · unfold test_pattern
    cases hp : b.patterns.get? idx with
    | none =>
      simp only [List.get?_eq_none] at hp
      simp [hp]
    | some p =>
      have hlen : ¬ b.patterns.length ≤ idx := by
        intro hle
        rw [List.get?_eq_none.mpr hle] at hp
        exact Option.noConfusion hp
      cases he : engine p.to_regex with
      | none => simp [hlen, he, hp]
      | some find => simp [hlen, he, hp]
  · intro p find hp he
    have hred : test_pattern b idx text engine =
        match engine p.to_regex with
        | none => none
        | some find => some (find text) := by
      unfold test_pattern
      rw [hp]
    rw [hred, he]

/-- Witness for `claim_C9`: on a builder holding one `Reference`-only
sequence (compiling to `.*`), an engine that accepts everything and
returns no matches yields `some []`, not `none`. -/
theorem claim_C9_witness :
    test_pattern ⟨[Pattern.Sequence "i" "n" [PatternElement.Reference "r"]], []⟩
        0 "xyz" (fun _ => some (fun _ => [])) = some [] :=
  (claim_C9 ⟨[Pattern.Sequence "i" "n" [PatternElement.Reference "r"]], []⟩ 0
    "xyz" (fun _ => some (fun _ => []))).2
    (Pattern.Sequence "i" "n" [PatternElement.Reference "r"]) (fun _ => []) rfl rfl

/-- CLAIM C10 (confirmed): when the storage save fails during
`build_sequence_pattern` on a non-empty selection buffer, the function
returns the propagated error, yet the newly built pattern has already been
appended to the in-memory pattern list and the selection buffer is not
cleared — it remains, re-sorted by `word_index` (and in particular still
non-empty). -/
theorem claim_C10 :
    ∀ (b : PatternBuilder) (name newId errMsg : String),
      b.current_selections ≠ [] →
      build_sequence_pattern b name newId (fun _ => Except.error errMsg) =
        ⟨Except.error errMsg,
         ⟨b.patterns ++ [Pattern.Sequence newId name
            (buildElemsAux (sortSelections b.current_selections))],
          sortSelections b.current_selections⟩,
         [b.patterns ++ [Pattern.Sequence newId name
            (buildElemsAux (sortSelections b.current_selections))]]⟩ ∧
      sortSelections b.current_selections ≠ [] := by
  intro b name newId errMsg h
  have hne : ¬ b.current_selections.isEmpty := by
    simpa [List.isEmpty_iff] using h
  constructor
  · simp [build_sequence_pattern, hne]
  · have hperm := List.mergeSort_perm b.current_selections
      (fun a b => a.word_index ≤ b.word_index)
    intro hcon
    rw [sortSelections] at hcon
    rw [hcon] at hperm
    exact h hperm.nil_eq.symm

/-- Witness for `claim_C10` on a one-selection builder. -/
theorem claim_C10_witness :
    build_sequence_pattern ⟨[], [⟨"cat", 0, 3, 0⟩]⟩ "n" "id"
        (fun _ => Except.error "storage down") =
      ⟨Except.error "storage down",
       ⟨[Pattern.Sequence "id" "n" [PatternElement.Word "cat"]],
        [⟨"cat", 0, 3, 0⟩]⟩,
       [[Pattern.Sequence "id" "n" [PatternElement.Word "cat"]]]⟩ := by
  have h := (claim_C10 ⟨[], [⟨"cat", 0, 3, 0⟩]⟩ "n" "id" "storage down"
    (by decide)).1
  have hsort : sortSelections [(⟨"cat", 0, 3, 0⟩ : SelectionSpan)] =
      [⟨"cat", 0, 3, 0⟩] :=
    List.mergeSort_of_sorted (by simp)
  rw [hsort] at h
  rw [h]
  have : buildElemsAux [(⟨"cat", 0, 3, 0⟩ : SelectionSpan)] =
      [PatternElement.Word "cat"] := by
    rw [buildElemsAux]
    simp [collectRun]
  rw [this]
  simp

theorem previewAux_map_toElem (l : List SelectionSpan) :
    (previewAux l).map previewToElem = buildElemsAux l := by
  rw [previewAux_runs, buildElemsAux_runs, intersperse_map]
  simp only [List.map_map]
  congr 1
  exact List.map_congr_left (fun r _ => previewToElem_mkPreview r)

theorem build_patterns_eq (b : PatternBuilder) (name newId : String)
    (save : List Pattern → Except String Unit)
    (h : b.current_selections.isEmpty = false) :
    (build_sequence_pattern b name newId save).builder.patterns =
      b.patterns ++ [Pattern.Sequence newId name
        (buildElemsAux (sortSelections b.current_selections))] := by
  unfold build_sequence_pattern
  rw [h]
  simp only [Bool.false_eq_true, if_false]
  cases hsave : save (b.patterns ++ [Pattern.Sequence newId name
      (buildElemsAux (sortSelections b.current_selections))]) with
  | ok u => rfl
  | error e => rfl

/-- CLAIM C3 (confirmed): on a non-empty buffer, `build_sequence_pattern`
appends a `Sequence` whose elements are the grouping of the buffer sorted
ascending by `word_index`: the sorted buffer splits into maximal runs of
consecutive `word_index` values (`runsOf`), each run becomes exactly one
`Word` whose text is the run's texts joined by a single space (a singleton
run keeps its own text), and exactly one `Gap{0, None}` is interspersed
between consecutive runs and never inside a run, giving the shape
`[phrase, (gap, phrase)*]`; in particular consecutive selections at
word_index 0,1,2 yield the single element `Word "the quick fox"` with no
`Gap`, and selections at 0 and 2 yield
`[Word "the", Gap 0 None, Word "fox"]`. -/
theorem claim_C3 :
    (∀ (b : PatternBuilder) (name newId : String)
        (save : List Pattern → Except String Unit),
      b.current_selections ≠ [] →
      (build_sequence_pattern b name newId save).builder.patterns =
        b.patterns ++ [Pattern.Sequence newId name
          (buildElemsAux (sortSelections b.current_selections))]) ∧
    (∀ l : List SelectionSpan,
      buildElemsAux l =
        List.intersperse (PatternElement.Gap 0 none)
          ((runsOf l).map mkPhrase)) ∧
    (∀ sels : List SelectionSpan,
      List.Pairwise (fun a b : SelectionSpan => a.word_index ≤ b.word_index)
        (sortSelections sels)) ∧
    (∀ l : List SelectionSpan, (runsOf l).flatten = l) ∧
    (∀ l : List SelectionSpan, ∀ r ∈ runsOf l,
      r ≠ [] ∧ List.Chain' (fun a b => b.word_index = a.word_index + 1) r) ∧
    (∀ l : List SelectionSpan,
      List.Chain' (fun r1 r2 => ∀ x y, r1.getLast? = some x →
        r2.head? = some y → ¬ y.word_index = x.word_index + 1) (runsOf l)) ∧
    (∀ (s : SelectionSpan) (tl : List SelectionSpan),
      mkPhrase (s :: tl) = PatternElement.Word
        (String.intercalate " " ((s :: tl).map (·.text)))) ∧
    buildElemsAux [⟨"the", 0, 3, 0⟩, ⟨"quick", 4, 9, 1⟩, ⟨"fox", 10, 13, 2⟩] =
      [PatternElement.Word "the quick fox"] ∧
    buildElemsAux [⟨"the", 0, 3, 0⟩, ⟨"fox", 10, 13, 2⟩] =
      [PatternElement.Word "the", PatternElement.Gap 0 none,
       PatternElement.Word "fox"] ∧
    sortSelections [⟨"the", 0, 3, 0⟩, ⟨"quick", 4, 9, 1⟩, ⟨"fox", 10, 13, 2⟩] =
      [⟨"the", 0, 3, 0⟩, ⟨"quick", 4, 9, 1⟩, ⟨"fox", 10, 13, 2⟩] ∧
    sortSelections [⟨"the", 0, 3, 0⟩, ⟨"fox", 10, 13, 2⟩] =
      [⟨"the", 0, 3, 0⟩, ⟨"fox", 10, 13, 2⟩] := by
  refine ⟨?_, buildElemsAux_runs, sortSelections_sorted, runsOf_flatten,
    runsOf_runs, runsOf_boundary, mkPhrase_join, ?_, ?_,
    List.mergeSort_of_sorted (by decide), List.mergeSort_of_sorted (by decide)⟩
  · intro b name newId save h
    have hne : b.current_selections.isEmpty = false := by
      simpa [List.isEmpty_iff] using h
    exact build_patterns_eq b name newId save hne
  · simp [buildElemsAux, collectRun]
    rfl
  · simp [buildElemsAux, collectRun]

/-- Witness for `claim_C3`: building from the sorted two-selection buffer
`the`(0), `fox`(2) commits exactly
`Sequence [Word "the", Gap 0 None, Word "fox"]`. -/
theorem claim_C3_witness :
    (build_sequence_pattern ⟨[], [⟨"the", 0, 3, 0⟩, ⟨"fox", 10, 13, 2⟩]⟩
        "n" "id" (fun _ => Except.ok ())).builder.patterns =
      [Pattern.Sequence "id" "n" [PatternElement.Word "the",
        PatternElement.Gap 0 none, PatternElement.Word "fox"]] := by
  have h := claim_C3.1 ⟨[], [⟨"the", 0, 3, 0⟩, ⟨"fox", 10, 13, 2⟩]⟩ "n" "id"
    (fun _ => Except.ok ()) (by decide)
  have hsort := claim_C3.2.2.2.2.2.2.2.2.2.2
  rw [h, hsort, claim_C3.2.2.2.2.2.2.2.2.1]
  rfl

/-- CLAIM C4 (confirmed): `get_pattern_preview` computes exactly the same
grouping as `build_sequence_pattern` — mapping each preview descriptor to
the element the builder commits at that position (`word`/`phrase` to
`Word`, the `and` separator to `Gap{0, None}`) yields precisely the
committed element list; descriptors are `word` for single-token runs and
`phrase` for multi-token runs, with one `and` descriptor exactly where the
builder inserts a `Gap`. The method takes `&self` and runs the grouping on
a sorted clone, so the builder state — in particular the selection
buffer — is a pure input and is never mutated. -/
theorem claim_C4 :
    (∀ l : List SelectionSpan,
      (previewAux l).map previewToElem = buildElemsAux l) ∧
    (∀ l : List SelectionSpan,
      previewAux l =
        List.intersperse PreviewElem.andSep ((runsOf l).map mkPreview)) ∧
    (∀ s : SelectionSpan, mkPreview [s] = PreviewElem.word s.text) ∧
    (∀ (s t : SelectionSpan) (tl : List SelectionSpan),
      mkPreview (s :: t :: tl) = PreviewElem.phrase
        (String.intercalate " " ((s :: t :: tl).map (·.text)))) ∧
    (∀ b : PatternBuilder, b.current_selections ≠ [] →
      get_pattern_preview b =
        some (previewAux (sortSelections b.current_selections))) ∧
    (∀ b : PatternBuilder, b.current_selections = [] →
      get_pattern_preview b = none) ∧
    (∀ (b : PatternBuilder) (name newId : String)
        (save : List Pattern → Except String Unit) (pv : List PreviewElem),
      get_pattern_preview b = some pv →
      (build_sequence_pattern b name newId save).builder.patterns =
        b.patterns ++ [Pattern.Sequence newId name (pv.map previewToElem)]) := by
  refine ⟨previewAux_map_toElem, previewAux_runs, fun s => rfl,
    fun s t tl => rfl, ?_, ?_, ?_⟩
  · intro b h
    have hne : b.current_selections.isEmpty = false := by
      simpa [List.isEmpty_iff] using h
    simp [get_pattern_preview, hne]
  · intro b h
    simp [get_pattern_preview, h]
  · intro b name newId save pv hp
    cases hne : b.current_selections.isEmpty with
    | true =>
      rw [get_pattern_preview, if_pos (by simp [hne])] at hp
      exact Option.noConfusion hp
    | false =>
      rw [get_pattern_preview, if_neg (by simp [hne])] at hp
      have hpv : pv = previewAux (sortSelections b.current_selections) :=
        (Option.some.injEq _ _ ▸ hp).symm
      rw [build_patterns_eq b name newId save hne, hpv,
        previewAux_map_toElem]

/-- Witness for `claim_C4`: on the buffer `the`(0), `fox`(2) the preview is
`[word "the", and, word "fox"]`, and its element interpretation is exactly
what building commits. -/
theorem claim_C4_witness :
    get_pattern_preview ⟨[], [⟨"the", 0, 3, 0⟩, ⟨"fox", 10, 13, 2⟩]⟩ =
      some [PreviewElem.word "the", PreviewElem.andSep,
        PreviewElem.word "fox"] ∧
    (build_sequence_pattern ⟨[], [⟨"the", 0, 3, 0⟩, ⟨"fox", 10, 13, 2⟩]⟩
        "n" "id" (fun _ => Except.ok ())).builder.patterns =
      [Pattern.Sequence "id" "n"
        ([PreviewElem.word "the", PreviewElem.andSep,
          PreviewElem.word "fox"].map previewToElem)] := by
  have hpre := claim_C4.2.2.2.2.1 ⟨[], [⟨"the", 0, 3, 0⟩, ⟨"fox", 10, 13, 2⟩]⟩
    (by decide)
  have hsort : sortSelections [⟨"the", 0, 3, 0⟩, ⟨"fox", 10, 13, 2⟩] =
      [(⟨"the", 0, 3, 0⟩ : SelectionSpan), ⟨"fox", 10, 13, 2⟩] :=
    List.mergeSort_of_sorted (by decide)
  have hpv : get_pattern_preview ⟨[], [⟨"the", 0, 3, 0⟩, ⟨"fox", 10, 13, 2⟩]⟩ =
      some [PreviewElem.word "the", PreviewElem.andSep,
        PreviewElem.word "fox"] := by
    rw [hpre, hsort]
    congr 1
    simp [previewAux, collectRun]
  refine ⟨hpv, ?_⟩
  rw [claim_C4.2.2.2.2.2.2 ⟨[], [⟨"the", 0, 3, 0⟩, ⟨"fox", 10, 13, 2⟩]⟩
    "n" "id" (fun _ => Except.ok ()) _ hpv]
  rfl

theorem charIndicesFrom_chain (i : Nat) (s : List Char) :
    List.Chain' (fun a b : Nat × Char => b.1 = a.1 + a.2.utf8Size)
      (charIndicesFrom i s) := by
  induction s generalizing i with
  | nil => simp [charIndicesFrom]
  | cons c cs ih =>
    cases cs with
    | nil => simp [charIndicesFrom]
    | cons d ds =>
      rw [charIndicesFrom, charIndicesFrom]
      exact List.chain'_cons.mpr ⟨rfl, by
        have h := ih (i + c.utf8Size)
        rwa [charIndicesFrom] at h⟩

theorem collectW_spec (e : Nat) (l : List (Nat × Char)) :
    ∃ consumed : List (Nat × Char),
      l = consumed ++ (collectW e l).2.2 ∧
      (collectW e l).1 = consumed.map Prod.snd ∧
      (∀ x ∈ consumed, isAlphanumeric x.2 = true) ∧
      (∀ x, (collectW e l).2.2.head? = some x → isAlphanumeric x.2 = false) ∧
      (collectW e l).2.1 = ((consumed.getLast?).map Prod.fst).getD e := by
  induction l generalizing e with
  | nil => exact ⟨[], by simp [collectW]⟩
  | cons hd tl ih =>
    obtain ⟨j, c⟩ := hd
    by_cases h : isAlphanumeric c
    · obtain ⟨consumed, h1, h2, h3, h4, h5⟩ := ih j
      refine ⟨(j, c) :: consumed, ?_, ?_, ?_, ?_, ?_⟩
      · simp only [collectW, h, if_pos]
        exact congrArg (List.cons (j, c)) h1
      · simp only [collectW, h, if_pos, List.map_cons]
        exact congrArg (List.cons c) h2
      · intro x hx
        rcases List.mem_cons.mp hx with rfl | hmem
        · exact h
        · exact h3 x hmem
      · intro x hx
        simp only [collectW, h, if_pos] at hx
        exact h4 x hx
      · simp only [collectW, h, if_pos]
        cases hcons : consumed with
        | nil =>
          rw [hcons] at h5
          simpa using h5
        | cons y ys =>
          rw [hcons] at h5
          rw [List.getLast?_cons_cons]
          simpa using h5
    · have hred : collectW e ((j, c) :: tl) = ([], e, (j, c) :: tl) := by
        simp [collectW, h]
      rw [hred]
      refine ⟨[], rfl, rfl, by simp, ?_, rfl⟩
      intro x hx
      simp only [List.head?_cons, Option.some.injEq] at hx
      subst hx
      simpa using h

theorem collectW_end_bound (e : Nat) (l : List (Nat × Char))
    (hc : List.Chain' (fun a b : Nat × Char => b.1 = a.1 + a.2.utf8Size) l)
    (hlb : ∀ x, l.head? = some x → e < x.1) :
    e ≤ (collectW e l).2.1 ∧
    (∀ x, (collectW e l).2.2.head? = some x → (collectW e l).2.1 < x.1) ∧
    List.Chain' (fun a b : Nat × Char => b.1 = a.1 + a.2.utf8Size)
      (collectW e l).2.2 := by
  induction l generalizing e with
  | nil => exact ⟨Nat.le_refl e, by simp [collectW], by simp [collectW]⟩
  | cons hd tl ih =>
    obtain ⟨j, c⟩ := hd
    have hej : e < j := hlb (j, c) rfl
    by_cases h : isAlphanumeric c
    · have hctl : List.Chain' (fun a b : Nat × Char => b.1 = a.1 + a.2.utf8Size)
          tl := hc.tail
      have hlb2 : ∀ x, tl.head? = some x → j < x.1 := by
        intro x hx
        cases tl with
        | nil => exact absurd hx (by simp)
        | cons y ys =>
          have hrel := List.chain'_cons.mp hc
          simp only [List.head?_cons, Option.some.injEq] at hx
          subst hx
          have := hrel.1
          simp only at this
          rw [this]
          have := Char.utf8Size_pos c
          omega
      obtain ⟨h1, h2, h3⟩ := ih j hctl hlb2
      refine ⟨?_, ?_, ?_⟩
      · simp only [collectW, h, if_pos]
        omega
      · intro x hx
        simp only [collectW, h, if_pos] at hx ⊢
        exact h2 x hx
      · simp only [collectW, h, if_pos]
        exact h3
    · have hred : collectW e ((j, c) :: tl) = ([], e, (j, c) :: tl) := by
        simp [collectW, h]
      rw [hred]
      refine ⟨Nat.le_refl e, ?_, hc⟩
      intro x hx
      simp only [List.head?_cons, Option.some.injEq] at hx
      subst hx
      exact hej

theorem getWordsAux_word_index (l : List (Nat × Char)) (wi : Nat) :
    (getWordsAux l wi).map (·.word_index) =
      List.range' wi (getWordsAux l wi).length := by
  induction l, wi using getWordsAux.induct with
  | case1 wi => simp [getWordsAux]
  | case2 i c rest wi h r ih =>
    unfold r at ih
    rw [getWordsAux, if_pos h]
    simp only [List.map_cons, List.length_cons, List.range'_succ]
    exact congrArg (List.cons wi) ih
  | case3 i c rest wi h ih =>
    rw [getWordsAux, if_neg h]
    exact ih

theorem getWordsAux_decomp (l : List (Nat × Char)) (wi : Nat) :
    ∀ t ∈ getWordsAux l wi,
    ∃ pre mid post : List (Nat × Char),
      l = pre ++ mid ++ post ∧ mid ≠ [] ∧
      (∀ x ∈ mid, isAlphanumeric x.2 = true) ∧
      t.text.data = mid.map Prod.snd ∧
      mid.head?.map Prod.fst = some t.start_index ∧
      (∃ la, mid.getLast? = some la ∧ t.end_index = la.1 + 1) ∧
      (∀ x, pre.getLast? = some x → isAlphanumeric x.2 = false) ∧
      (∀ x, post.head? = some x → isAlphanumeric x.2 = false) := by
  induction l, wi using getWordsAux.induct with
  | case1 wi => simp [getWordsAux]
  | case2 i c rest wi h r ih =>
    unfold r at ih
    intro t ht
    rw [getWordsAux, if_pos h] at ht
    obtain ⟨consumed, hs1, hs2, hs3, hs4, hs5⟩ := collectW_spec i rest
    rcases List.mem_cons.mp ht with rfl | hmem
    · refine ⟨[], (i, c) :: consumed, (collectW i rest).2.2, ?_, ?_, ?_, ?_,
        ?_, ?_, ?_, hs4⟩
      · simp only [List.nil_append, List.cons_append]
        exact congrArg (List.cons (i, c)) hs1
      · exact List.cons_ne_nil _ _
      · intro x hx
        rcases List.mem_cons.mp hx with rfl | hx2
        · exact h
        · exact hs3 x hx2
      · simp only [List.map_cons]
        exact congrArg (List.cons c) hs2
      · rfl
      · cases hcons : consumed with
        | nil =>
          refine ⟨(i, c), by simp [hcons], ?_⟩
          rw [hcons] at hs5
          simp only [List.getLast?_nil, Option.map_none, Option.getD_none]
            at hs5
          simp [hs5]
        | cons y ys =>
          refine ⟨(y :: ys).getLast (List.cons_ne_nil y ys), ?_, ?_⟩
          · rw [List.getLast?_cons_cons]
            exact List.getLast?_eq_getLast (y :: ys) (List.cons_ne_nil y ys)
          · rw [hcons] at hs5
            rw [List.getLast?_eq_getLast (y :: ys) (List.cons_ne_nil y ys)]
              at hs5
            simp at hs5
            simp [hs5]
      · intro x hx
        simp at hx
    · obtain ⟨pre2, mid, post, hd1, hd2, hd3, hd4, hd5, hd6, hd7, hd8⟩ :=
        ih t hmem
      refine ⟨(i, c) :: (consumed ++ pre2), mid, post, ?_, hd2, hd3, hd4,
        hd5, hd6, ?_, hd8⟩
      · rw [hs1, hd1]
        simp [List.append_assoc]
      · intro x hx
        cases hp2 : pre2 with
        | nil =>
          exfalso
          cases hm : mid with
          | nil => exact hd2 hm
          | cons m ms =>
            have hhead : (collectW i rest).2.2.head? = some m := by
              rw [hd1, hp2, hm]
              rfl
            have halnum := hd3 m (by simp [hm])
            have hfalse := hs4 m hhead
            rw [halnum] at hfalse
            exact Bool.noConfusion hfalse
        | cons p ps =>
          have hx2 : pre2.getLast? = some x := by
            rw [show ((i, c) :: (consumed ++ pre2)) =
              ((i, c) :: consumed) ++ pre2 from by simp] at hx
            rw [List.getLast?_append] at hx
            cases hgl : pre2.getLast? with
            | none =>
              rw [List.getLast?_eq_none_iff] at hgl
              rw [hgl] at hp2
              exact List.noConfusion hp2
            | some z =>
              rw [hgl] at hx
              simpa using hx
          exact hd7 x hx2
  | case3 i c rest wi h ih =>
    intro t ht
    rw [getWordsAux, if_neg h] at ht
    obtain ⟨pre2, mid, post, hd1, hd2, hd3, hd4, hd5, hd6, hd7, hd8⟩ :=
      ih t ht
    refine ⟨(i, c) :: pre2, mid, post, ?_, hd2, hd3, hd4, hd5, hd6, ?_, hd8⟩
    · rw [hd1]
      simp
    · intro x hx
      cases hp2 : pre2 with
      | nil =>
        rw [hp2] at hx
        simp only [List.getLast?_singleton, Option.some.injEq] at hx
        subst hx
        simpa using h
      | cons p ps =>
        rw [hp2] at hx
        rw [List.getLast?_cons_cons] at hx
        rw [hp2] at hd7
        exact hd7 x hx

theorem getWordsAux_nonempty_stream (l : List (Nat × Char)) (wi : Nat)
    (h : getWordsAux l wi ≠ []) : l ≠ [] := by
  intro hl
  rw [hl, getWordsAux] at h
  exact h rfl

theorem getWordsAux_chain (l : List (Nat × Char)) (wi : Nat)
    (hc : List.Chain' (fun a b : Nat × Char => b.1 = a.1 + a.2.utf8Size) l) :
    List.Chain' (fun a b : WordInfo => a.end_index ≤ b.start_index)
      (getWordsAux l wi) ∧
    (∀ t, (getWordsAux l wi).head? = some t →
      ∀ x, l.head? = some x → x.1 ≤ t.start_index) ∧
    (∀ t ∈ getWordsAux l wi, t.start_index < t.end_index) := by
  revert hc
  induction l, wi using getWordsAux.induct with
  | case1 wi =>
    intro hc
    refine ⟨by simp [getWordsAux], ?_, by simp [getWordsAux]⟩
    intro t ht
    rw [getWordsAux] at ht
    exact absurd ht (by simp)
  | case2 i c rest wi h r ih =>
    unfold r at ih
    intro hc
    have hlb : ∀ x, rest.head? = some x → i < x.1 := by
      intro x hx
      cases rest with
      | nil => exact absurd hx (by simp)
      | cons y ys =>
        have hrel : y.1 = i + c.utf8Size := (List.chain'_cons.mp hc).1
        simp only [List.head?_cons, Option.some.injEq] at hx
        subst hx
        rw [hrel]
        have := Char.utf8Size_pos c
        omega
    obtain ⟨hb1, hb2, hb3⟩ := collectW_end_bound i rest hc.tail hlb
    obtain ⟨ic1, ic2, ic3⟩ := ih hb3
    rw [getWordsAux, if_pos h]
    refine ⟨?_, ?_, ?_⟩
    · refine List.chain'_cons'.mpr ⟨?_, ic1⟩
      intro y hy
      have hne : getWordsAux (collectW i rest).2.2 (wi + 1) ≠ [] := by
        intro hnil
        rw [hnil] at hy
        exact absurd hy (by simp)
      have hsne : (collectW i rest).2.2 ≠ [] :=
        getWordsAux_nonempty_stream _ _ hne
      obtain ⟨x0, hx0⟩ : ∃ x0, (collectW i rest).2.2.head? = some x0 := by
        cases hh : (collectW i rest).2.2.head? with
        | none => exact absurd (List.head?_eq_none_iff.mp hh) hsne
        | some z => exact ⟨z, rfl⟩
      have hx0lt := hb2 x0 hx0
      have hyge := ic2 y (by
        cases hg : getWordsAux (collectW i rest).2.2 (wi + 1) with
        | nil => exact absurd hg hne
        | cons u us =>
          rw [hg] at hy
          simpa using hy) x0 hx0
      show (collectW i rest).2.1 + 1 ≤ y.start_index
      omega
    · intro t ht x hx
      simp only [List.head?_cons, Option.some.injEq] at ht hx
      subst ht
      subst hx
      exact Nat.le_refl i
    · intro t ht
      rcases List.mem_cons.mp ht with rfl | hmem
      · show i < (collectW i rest).2.1 + 1
        omega
      · exact ic3 t hmem
  | case3 i c rest wi h ih =>
    intro hc
    obtain ⟨ic1, ic2, ic3⟩ := ih hc.tail
    rw [getWordsAux, if_neg h]
    refine ⟨ic1, ?_, ic3⟩
    intro t ht x hx
    simp only [List.head?_cons, Option.some.injEq] at hx
    subst hx
    cases rest with
    | nil =>
      rw [getWordsAux] at ht
      exact absurd ht (by simp)
    | cons y ys =>
      have hrel : y.1 = i + c.utf8Size := (List.chain'_cons.mp hc).1
      have hyt := ic2 t ht y rfl
      rw [hrel] at hyt
      have := Char.utf8Size_pos c
      omega

/-- CLAIM C2 (corrected), counterexample to the claim as stated: tokenizer
offsets are not character-position based. On the input `"€a"` (the euro
sign is a three-byte, non-alphanumeric character) the single token is
`("a", 3, 4, 0)`: `start_index` is the UTF-8 byte offset `3`, although the
character position of `a` is `1` in a two-character string — so reading
the offsets as character positions does not recover the token text. -/
theorem claim_C2_counterexample :
    get_words_from_text "€a".data = [⟨"a", 3, 4, 0⟩] ∧
    "€a".data.length = 2 ∧
    ¬ (∀ t ∈ get_words_from_text "€a".data,
        t.text.data =
          (("€a".data).drop t.start_index).take
            (t.end_index - t.start_index)) := by
  have heval : get_words_from_text "€a".data = [⟨"a", 3, 4, 0⟩] := by
    simp [get_words_from_text, charIndicesFrom, getWordsAux, collectW,
      isAlphanumeric, Char.isAlphanum, Char.isAlpha, Char.isDigit,
      Char.isUpper, Char.isLower, Char.utf8Size, String.data]
  refine ⟨heval, by decide, ?_⟩
  intro hall
  have h := hall ⟨"a", 3, 4, 0⟩ (by rw [heval]; simp)
  exact absurd h (by decide)

/-- CLAIM C2 (corrected): for every input string the tokenizer produces
tokens in strictly increasing `word_index` order starting at 0; the
offsets are UTF-8 byte-based and non-overlapping — `start_index` is the
byte offset of the token's first character and `end_index` is the byte
offset of its last character plus one (so in particular
`start_index < end_index`, and for ASCII text the offsets coincide with
end-exclusive character positions); and the token text is the maximal run
of alphanumeric characters at those byte offsets (every character of the
run is alphanumeric and the characters adjacent to the run, when they
exist, are not); in particular `"the quick fox"` yields
`("the",0,3,0), ("quick",4,9,1), ("fox",10,13,2)`. -/
theorem claim_C2 :
    (∀ s : List Char,
      (get_words_from_text s).map (·.word_index) =
        List.range (get_words_from_text s).length) ∧
    (∀ s : List Char,
      List.Chain' (fun a b : WordInfo => a.end_index ≤ b.start_index)
        (get_words_from_text s)) ∧
    (∀ s : List Char, ∀ t ∈ get_words_from_text s,
      t.start_index < t.end_index) ∧
    (∀ s : List Char, ∀ t ∈ get_words_from_text s,
      ∃ pre mid post : List (Nat × Char),
        charIndicesFrom 0 s = pre ++ mid ++ post ∧ mid ≠ [] ∧
        (∀ x ∈ mid, isAlphanumeric x.2 = true) ∧
        t.text.data = mid.map Prod.snd ∧
        mid.head?.map Prod.fst = some t.start_index ∧
        (∃ la, mid.getLast? = some la ∧ t.end_index = la.1 + 1) ∧
        (∀ x, pre.getLast? = some x → isAlphanumeric x.2 = false) ∧
        (∀ x, post.head? = some x → isAlphanumeric x.2 = false)) ∧
    get_words_from_text "the quick fox".data =
      [⟨"the", 0, 3, 0⟩, ⟨"quick", 4, 9, 1⟩, ⟨"fox", 10, 13, 2⟩] := by
  refine ⟨?_, ?_, ?_, ?_, ?_⟩
  · intro s
    have h := getWordsAux_word_index (charIndicesFrom 0 s) 0
    rw [List.range_eq_range']
    exact h
  · intro s
    exact (getWordsAux_chain (charIndicesFrom 0 s) 0
      (charIndicesFrom_chain 0 s)).1
  · intro s
    exact (getWordsAux_chain (charIndicesFrom 0 s) 0
      (charIndicesFrom_chain 0 s)).2.2
  · intro s
    exact getWordsAux_decomp (charIndicesFrom 0 s) 0
  · simp [get_words_from_text, charIndicesFrom, getWordsAux, collectW,
      isAlphanumeric, Char.isAlphanum, Char.isAlpha, Char.isDigit,
      Char.isUpper, Char.isLower, Char.utf8Size, String.data]

/-- Witness for `claim_C2`: the first token of `"the quick fox"` has
`start_index < end_index`, by the theorem's membership-guarded conjunct
applied at that concrete token. -/
theorem claim_C2_witness :
    (⟨"the", 0, 3, 0⟩ : WordInfo).start_index <
      (⟨"the", 0, 3, 0⟩ : WordInfo).end_index := by
  have hmem : (⟨"the", 0, 3, 0⟩ : WordInfo) ∈
      get_words_from_text "the quick fox".data := by
    rw [claim_C2.2.2.2.2]
    simp
  exact claim_C2.2.2.1 "the quick fox".data _ hmem

end Regexgen
